import Mathlib

/-!
# Verification of the horus-gui telemetry / signal-processing pipeline

Shallow embedding, in Lean 4, of the parts of `horus-gui` that the
specification's claims are about:

* `horusgui/horusudp.py` — `crc16_ccitt` and `decode_ukhas_sentence`
  (UKHAS ASCII sentence parsing with CRC16-CCITT-false validation);
* `horusgui/fft.py` — `FFTProcess.perform_fft`, `FFTProcess.process_block`,
  `FFTProcess.add_samples` (streaming FFT buffering and bounded input queue);
* `horusgui/gui.py` — `MainWindow.get_latest_snr` and the telemetry fan-out
  logic of `MainWindow.handle_new_packet`;
* `horusgui/rotators.py` — the input sanitisation of `ROTCTLD.set_azel`
  and `PSTRotator.set_azel`.

Modelling conventions:

* Python strings are modelled as `List Char`; byte strings as `List ℕ`
  (each element `< 256`).
* Python `float` values are modelled as exact rationals `ℚ`.  All the
  comparisons the claims are about (equality with `0.0`, comparisons with
  integer thresholds such as `250`, `90`, `360`, `65535`) are exact on the
  decimal literals involved, so the `ℚ` model is faithful for them.
* Machine integers do not occur: Python integers are unbounded, and the
  CRC state is kept below `2 ^ 16` explicitly.
* Fallible operations (`float(...)`, `int(...)`, `strptime`, indexing)
  return `Option`; a raised-and-caught exception corresponds to `none`.
* The CRC itself is computed by the external `crcmod` library
  (`crcmod.predefined.mkCrcFun("crc-ccitt-false")`), which is not part of
  this repository; it is modelled here by its defining parameters, named
  in the source and the specification: polynomial 0x1021, initial value
  0xFFFF, MSB-first, no reflection, no final XOR.
-/

namespace HorusGui

/-! ## CRC16-CCITT (false)

Model of the `crc-ccitt-false` predefined CRC used by
`crc16_ccitt` in `horusgui/horusudp.py`: 16-bit state, initial value
`0xFFFF`, polynomial `0x1021`, MSB-first, no reflection, no output XOR.
The state is kept in `[0, 2^16)` throughout. -/

/-- One bit-step of the CRC16 update: shift the 16-bit state left by one;
if the bit shifted out was set, XOR in the polynomial `0x1021`. -/
def crcStep (c : ℕ) : ℕ :=
  if c < 32768 then 2 * c else (2 * c - 65536) ^^^ 0x1021

/-- Inverse of `crcStep` on states below `2 ^ 16`.  The polynomial `0x1021`
is odd and a plain left shift is even, so the parity of the output tells
which branch `crcStep` took. -/
def crcStepInv (c : ℕ) : ℕ :=
  if c % 2 = 1 then ((c ^^^ 0x1021) + 65536) / 2 else c / 2

/-- Process one byte: XOR it into the top 8 bits of the state, then run
eight bit-steps. -/
def crcByte (c b : ℕ) : ℕ :=
  crcStep^[8] (c ^^^ b * 256)

/-- CRC16-CCITT-false of a byte list: fold `crcByte` from state `0xFFFF`. -/
def crc16 (data : List ℕ) : ℕ :=
  data.foldl crcByte 0xFFFF

theorem xor_lt_two_pow {x y n : ℕ} (hx : x < 2 ^ n) (hy : y < 2 ^ n) :
    x ^^^ y < 2 ^ n :=
  Nat.bitwise_lt_two_pow hx hy

theorem crcStep_lt {c : ℕ} (hc : c < 65536) : crcStep c < 65536 := by
  unfold crcStep
  split
  · omega
  · have h1 : 2 * c - 65536 < 2 ^ 16 := by omega
    have h2 : (0x1021 : ℕ) < 2 ^ 16 := by norm_num
    simpa using xor_lt_two_pow h1 h2

theorem crcStepInv_crcStep {c : ℕ} (hc : c < 65536) :
    crcStepInv (crcStep c) = c := by
  unfold crcStep crcStepInv
  by_cases h : c < 32768
  · simp only [if_pos h]
    have h2 : 2 * c % 2 = 0 := by omega
    rw [if_neg (by omega)]
    omega
  · simp only [if_neg h]
    have hpar : ((2 * c - 65536) ^^^ 0x1021) % 2 = 1 := by
      rw [Nat.xor_mod_two_eq]
      omega
    rw [if_pos hpar, Nat.xor_cancel_right]
    omega

theorem crcStep_injOn {c₁ c₂ : ℕ} (h₁ : c₁ < 65536) (h₂ : c₂ < 65536)
    (h : crcStep c₁ = crcStep c₂) : c₁ = c₂ := by
  have := congrArg crcStepInv h
  rwa [crcStepInv_crcStep h₁, crcStepInv_crcStep h₂] at this

theorem crcStep_iter_lt {k c : ℕ} (hc : c < 65536) : crcStep^[k] c < 65536 := by
  induction k generalizing c with
  | zero => simpa using hc
  | succ k ih =>
    rw [Function.iterate_succ_apply]
    exact ih (crcStep_lt hc)

theorem crcStep_iter_injOn {k c₁ c₂ : ℕ} (h₁ : c₁ < 65536) (h₂ : c₂ < 65536)
    (h : crcStep^[k] c₁ = crcStep^[k] c₂) : c₁ = c₂ := by
  induction k generalizing c₁ c₂ with
  | zero => simpa using h
  | succ k ih =>
    rw [Function.iterate_succ_apply, Function.iterate_succ_apply] at h
    exact crcStep_injOn h₁ h₂ (ih (crcStep_lt h₁) (crcStep_lt h₂) h)

theorem xor_left_cancel {c x y : ℕ} (h : c ^^^ x = c ^^^ y) : x = y := by
  have := congrArg (fun z => c ^^^ z) h
  simpa [← Nat.xor_assoc] using this

theorem crcByte_lt {c b : ℕ} (hc : c < 65536) (hb : b < 256) :
    crcByte c b < 65536 := by
  unfold crcByte
  apply crcStep_iter_lt
  have h1 : c < 2 ^ 16 := hc
  have h2 : b * 256 < 2 ^ 16 := by omega
  simpa using xor_lt_two_pow h1 h2

theorem crcByte_state_injOn {c₁ c₂ b : ℕ} (h₁ : c₁ < 65536) (h₂ : c₂ < 65536)
    (hb : b < 256) (h : crcByte c₁ b = crcByte c₂ b) : c₁ = c₂ := by
  unfold crcByte at h
  have hx1 : c₁ ^^^ b * 256 < 65536 := by
    have := xor_lt_two_pow (n := 16) h₁ (by omega : b * 256 < 2 ^ 16)
    simpa using this
  have hx2 : c₂ ^^^ b * 256 < 65536 := by
    have := xor_lt_two_pow (n := 16) h₂ (by omega : b * 256 < 2 ^ 16)
    simpa using this
  have := crcStep_iter_injOn hx1 hx2 h
  have h' := congrArg (fun z => z ^^^ b * 256) this
  simpa [Nat.xor_cancel_right] using h'

theorem crcByte_byte_ne {c b₁ b₂ : ℕ} (hc : c < 65536)
    (hb₁ : b₁ < 256) (hb₂ : b₂ < 256) (hne : b₁ ≠ b₂) :
    crcByte c b₁ ≠ crcByte c b₂ := by
  unfold crcByte
  intro h
  have hx1 : c ^^^ b₁ * 256 < 65536 := by
    have := xor_lt_two_pow (n := 16) hc (by omega : b₁ * 256 < 2 ^ 16)
    simpa using this
  have hx2 : c ^^^ b₂ * 256 < 65536 := by
    have := xor_lt_two_pow (n := 16) hc (by omega : b₂ * 256 < 2 ^ 16)
    simpa using this
  have := crcStep_iter_injOn hx1 hx2 h
  have := xor_left_cancel this
  omega

theorem crcFold_lt {init : ℕ} (hinit : init < 65536) (l : List ℕ)
    (hl : ∀ b ∈ l, b < 256) : l.foldl crcByte init < 65536 := by
  induction l generalizing init with
  | nil => simpa using hinit
  | cons b t ih =>
    simp only [List.foldl_cons]
    exact ih (crcByte_lt hinit (hl b (by simp))) (fun x hx => hl x (by simp [hx]))

theorem crcFold_state_injOn {c₁ c₂ : ℕ} (h₁ : c₁ < 65536) (h₂ : c₂ < 65536)
    (l : List ℕ) (hl : ∀ b ∈ l, b < 256)
    (h : l.foldl crcByte c₁ = l.foldl crcByte c₂) : c₁ = c₂ := by
  induction l generalizing c₁ c₂ with
  | nil => simpa using h
  | cons b t ih =>
    simp only [List.foldl_cons] at h
    have hb : b < 256 := hl b (by simp)
    have := ih (crcByte_lt h₁ hb) (crcByte_lt h₂ hb)
      (fun x hx => hl x (by simp [hx])) h
    exact crcByte_state_injOn h₁ h₂ hb this

theorem crc16_lt (l : List ℕ) (hl : ∀ b ∈ l, b < 256) : crc16 l < 65536 :=
  crcFold_lt (by norm_num) l hl

/-- A CRC16 detects every single-byte substitution: two byte lists that agree
except at one position (where they hold different bytes) have different CRCs. -/
theorem crc16_single_byte_change (p s : List ℕ) {b₁ b₂ : ℕ}
    (hp : ∀ x ∈ p, x < 256) (hs : ∀ x ∈ s, x < 256)
    (hb₁ : b₁ < 256) (hb₂ : b₂ < 256) (hne : b₁ ≠ b₂) :
    crc16 (p ++ b₁ :: s) ≠ crc16 (p ++ b₂ :: s) := by
  unfold crc16
  simp only [List.foldl_append, List.foldl_cons]
  intro h
  have hc : p.foldl crcByte 0xFFFF < 65536 := crcFold_lt (by norm_num) p hp
  have := crcFold_state_injOn (crcByte_lt hc hb₁) (crcByte_lt hc hb₂) s hs h
  exact crcByte_byte_ne hc hb₁ hb₂ hne this

set_option maxRecDepth 4096 in
/-- No single byte leaves the initial CRC state `0xFFFF` fixed. -/
theorem crcByte_ffff_ne : ∀ b < 256, crcByte 0xFFFF b ≠ 0xFFFF := by decide

/-! ## Python string primitives

`decode_ukhas_sentence` uses `str.strip()`, `str.split(sep)`, `float(...)`,
`int(...)` and `datetime.strptime(..., "%H:%M:%S")`.  Strings are `List Char`.
`str.split` with a one-character separator is Mathlib's `List.splitOn`. -/

/-- Python `str.strip()` (whitespace at both ends; the model covers the ASCII
whitespace characters, which are the only ones the sentences contain). -/
def pyStrip (s : List Char) : List Char :=
  ((s.dropWhile Char.isWhitespace).reverse.dropWhile Char.isWhitespace).reverse

/-- Whether the string contains `"$$"` as a substring (equivalently: whether
the left-to-right scan of Python `str.split("$$")` finds a separator). -/
def hasDD : List Char → Bool
  | [] => false
  | c :: rest => (decide (c = '$') && decide (rest.head? = some '$')) || hasDD rest

/-- Python `s.split("$$")[-1]`: the suffix delivered by the left-to-right
non-overlapping separator scan of `str.split`.  On a separator match the
scan resumes after both characters; on a mismatch it advances by one, and
the current position starts the final fragment exactly when no further
separator occurs. -/
def afterLastDD : List Char → List Char
  | [] => []
  | [c] => [c]
  | c :: d :: rest =>
    if c = '$' ∧ d = '$' then afterLastDD rest
    else if hasDD (d :: rest) then afterLastDD (d :: rest) else c :: d :: rest

/-- Numeric value of a digit string (most significant first). -/
def digitsToNat (l : List Char) : ℕ :=
  l.foldl (fun a c => 10 * a + (c.toNat - 48)) 0

/-- Python `int(s)` on an optionally signed decimal string (the model omits
the underscore-separator and non-ASCII-digit forms, which never occur in
the sentences under consideration; those strings are treated as failures). -/
def pyInt (s0 : List Char) : Option ℤ :=
  let s := pyStrip s0
  match s with
  | '-' :: r => if r ≠ [] ∧ r.all Char.isDigit then some (-(digitsToNat r : ℤ)) else none
  | '+' :: r => if r ≠ [] ∧ r.all Char.isDigit then some ((digitsToNat r : ℤ)) else none
  | r => if r ≠ [] ∧ r.all Char.isDigit then some ((digitsToNat r : ℤ)) else none

/-- Exponent part of a Python float literal: optionally signed digits. -/
def pyExp (s : List Char) : Option ℤ :=
  match s with
  | '-' :: r => if r ≠ [] ∧ r.all Char.isDigit then some (-(digitsToNat r : ℤ)) else none
  | '+' :: r => if r ≠ [] ∧ r.all Char.isDigit then some ((digitsToNat r : ℤ)) else none
  | r => if r ≠ [] ∧ r.all Char.isDigit then some ((digitsToNat r : ℤ)) else none

/-- Part of Python `float(s)` after the sign:
`digits ["." digits] | "." digits`, optionally followed by
`("e"|"E") exponent`.  The returned rational is the exact value
`sign · (intpart.fracpart) · 10 ^ exponent`, built with `mkRat` (note
`mkRat n (10 ^ k) = n / 10 ^ k` in `ℚ`). -/
def pyFloatCore (sign : ℤ) (s : List Char) : Option ℚ :=
  let ip := s.takeWhile Char.isDigit
  let s1 := s.dropWhile Char.isDigit
  match s1 with
  | [] => if ip.isEmpty then none else some (mkRat (sign * (digitsToNat ip : ℤ)) 1)
  | '.' :: r =>
    let fp := r.takeWhile Char.isDigit
    let s2 := r.dropWhile Char.isDigit
    if ip.isEmpty ∧ fp.isEmpty then none
    else
      let num : ℤ := sign * ((digitsToNat ip : ℤ) * 10 ^ fp.length + (digitsToNat fp : ℤ))
      match s2 with
      | [] => some (mkRat num (10 ^ fp.length))
      | e :: r2 =>
        if e = 'e' ∨ e = 'E' then
          (pyExp r2).map fun ex =>
            mkRat (num * 10 ^ ex.toNat) (10 ^ (fp.length + (-ex).toNat))
        else none
  | e :: r2 =>
    if (e = 'e' ∨ e = 'E') ∧ ¬ip.isEmpty then
      (pyExp r2).map fun ex =>
        mkRat (sign * (digitsToNat ip : ℤ) * 10 ^ ex.toNat) (10 ^ (-ex).toNat)
    else none

/-- The magnitude below which IEEE-754 round-to-nearest-even sends a
non-zero real to the double `0.0`: half the smallest positive subnormal
`2^-1074`, with the tie at exactly `2^-1075` rounding to the even `0`.
So `float(s) == 0.0` in Python exactly when the decimal value `q` of `s`
satisfies `|q| ≤ 2^-1075` (e.g. `float("1e-400") == 0.0`). -/
def doubleZeroThreshold : ℚ := mkRat 1 (2 ^ 1075)

/-- Python `float(s)` (the model omits the `inf`/`nan`/underscore forms,
which never occur in the sentences under consideration).  CPython parses
the decimal value correctly rounded to the nearest IEEE-754 double; the
model keeps the exact rational except that it collapses the values that
round to the double `0.0` — those of magnitude at most `2^-1075` — to
exactly `0`, so that the source's `== 0.0` comparisons are decided
faithfully.  Elsewhere the exact value differs from the rounded double
(which may also be `±inf` on overflow) by a relative error that moves
none of the comparisons the claims are about across a boundary. -/
def pyFloat (s0 : List Char) : Option ℚ :=
  (match pyStrip s0 with
   | '-' :: r => pyFloatCore (-1) r
   | '+' :: r => pyFloatCore 1 r
   | r => pyFloatCore 1 r).map fun q =>
    if -doubleZeroThreshold ≤ q ∧ q ≤ doubleZeroThreshold then 0 else q

/-- `datetime.datetime.strptime(s, "%H:%M:%S")`: the CPython regex
`(2[0-3]|[0-1]\d|\d):([0-5]\d|\d):(6[0-1]|[0-5]\d|\d)` is anchored
against the whole string — since `:` is not a digit it matches exactly
the strings `H:M:S` with one- or two-digit fields, `H ≤ 23`, `M ≤ 59`,
`S ≤ 61` — and the matched values are then passed to the
`datetime.datetime` constructor, which additionally rejects the leap
seconds 60 and 61 (`second must be in 0..59`).  Both failures raise
`ValueError`, which the caller's `except` turns into a parse failure, so
the accepted language has `S ≤ 59`. -/
def parseTimeHMS (s : List Char) : Option (ℕ × ℕ × ℕ) :=
  match s.splitOn ':' with
  | [hs, ms, ss] =>
    if (hs.length = 1 ∨ hs.length = 2) ∧ hs.all Char.isDigit ∧ digitsToNat hs ≤ 23
        ∧ (ms.length = 1 ∨ ms.length = 2) ∧ ms.all Char.isDigit ∧ digitsToNat ms ≤ 59
        ∧ (ss.length = 1 ∨ ss.length = 2) ∧ ss.all Char.isDigit ∧ digitsToNat ss ≤ 59
    then some (digitsToNat hs, digitsToNat ms, digitsToNat ss)
    else none
  | _ => none

/-- Uppercase hexadecimal digit. -/
def hexDig (n : ℕ) : Char :=
  if n < 10 then Char.ofNat (48 + n) else Char.ofNat (55 + n)

/-- Python `hex(c)[2:].upper().zfill(4)` for `c < 65536`: exactly four
uppercase hexadecimal digits. -/
def toHex4 (c : ℕ) : List Char :=
  [hexDig (c / 4096 % 16), hexDig (c / 256 % 16), hexDig (c / 16 % 16), hexDig (c % 16)]

/-- Python `s.encode("ascii")`: the byte list, failing on any non-ASCII
character. -/
def charsToBytes (s : List Char) : Option (List ℕ) :=
  if s.all (fun c => c.toNat < 128) then some (s.map Char.toNat) else none

/-- `crc16_ccitt` from `horusgui/horusudp.py`:
`hex(crc16(data))[2:].upper().zfill(4)`. -/
def crc16_ccitt (data : List ℕ) : List Char :=
  toHex4 (crc16 data)

/-! ## `decode_ukhas_sentence` (`horusgui/horusudp.py`) -/

/-- The tele­metry fields extracted by `decode_ukhas_sentence`.  The Python
dict also carries the constants `speed = heading = temp = sats =
batt_voltage = -1`, omitted here. -/
structure UkhasTelem where
  callsign : List Char
  time : List Char
  latitude : ℚ
  longitude : ℚ
  altitude : ℤ
  deriving DecidableEq, Repr

/-- Field extraction and sanity checks of `decode_ukhas_sentence`, after the
CRC has been verified: positional fields `callsign, sequence (ignored),
time, latitude, longitude, altitude` (an out-of-range index raises, hence
`none`), then the time / zero-position / altitude-range checks, in the
order the source performs them. -/
def decodeFields (fields : List (List Char)) : Option UkhasTelem :=
  (fields.get? 0).bind fun cal =>
  (fields.get? 2).bind fun tim =>
  (fields.get? 3).bind fun latS =>
  (fields.get? 4).bind fun lonS =>
  (fields.get? 5).bind fun altS =>
  (pyFloat latS).bind fun lat =>
  (pyFloat lonS).bind fun lon =>
  (pyInt altS).bind fun alt =>
  if (parseTimeHMS tim).isNone then none
  else if lat = 0 ∨ lon = 0 then none
  else if alt > 65535 ∨ alt < 0 then none
  else some ⟨cal, tim, lat, lon, alt⟩

/-- The `_sentence[0] == "$"` hack: drop a single leading `$` left over from
an odd number of `$`s; indexing an empty string raises (hence `none`). -/
def stripLeadDollar (s : List Char) : Option (List Char) :=
  match s with
  | [] => none
  | c :: rest => some (if c = '$' then rest else c :: rest)

/-- `_telem = _sentence.split("*")[0]; _crc = _sentence.split("*")[1]`:
the first two fragments of the `*` split; a missing `[1]` raises (hence
`none`). -/
def splitTelemCrc (s : List Char) : Option (List Char × List Char) :=
  match s.splitOn '*' with
  | telem :: crc :: _ => some (telem, crc)
  | _ => none

/-- `decode_ukhas_sentence` from `horusgui/horusudp.py`.  Any Python
exception escaping to the enclosing `try` (index errors in `[0]`/`[1]`/field
access, `float`/`int` conversion errors, `.encode("ascii")` errors) yields
`None`; the exception flow is embedded as an `Option.bind` chain. -/
def decode_ukhas_sentence (sentence : List Char) : Option UkhasTelem :=
  (stripLeadDollar (afterLastDD (pyStrip sentence))).bind fun s3 =>
  (splitTelemCrc s3).bind fun tc =>
  (charsToBytes tc.1).bind fun tb =>
  if crc16_ccitt tb ≠ tc.2 then none
  else decodeFields (tc.1.splitOn ',')

/-! ## Structural lemmas about the sentence parsing -/

theorem hexDig_props : ∀ n < 16, (hexDig n).toNat < 128 ∧ hexDig n ≠ '$' ∧
    hexDig n ≠ '*' ∧ (hexDig n).isWhitespace = false := by decide

theorem toHex4_mem {c : ℕ} {x : Char} (hx : x ∈ toHex4 c) :
    x.toNat < 128 ∧ x ≠ '$' ∧ x ≠ '*' ∧ x.isWhitespace = false := by
  simp only [toHex4, List.mem_cons, List.not_mem_nil, or_false] at hx
  rcases hx with h | h | h | h <;>
    exact h ▸ hexDig_props _ (Nat.mod_lt _ (by norm_num))

theorem toHex4_ne_nil (c : ℕ) : toHex4 c ≠ [] := by simp [toHex4]

theorem pyStrip_eq_self {s : List Char}
    (h1 : ∀ c, s.head? = some c → c.isWhitespace = false)
    (h2 : ∀ c, s.getLast? = some c → c.isWhitespace = false) :
    pyStrip s = s := by
  unfold pyStrip
  have e1 : s.dropWhile Char.isWhitespace = s := by
    cases s with
    | nil => rfl
    | cons a t =>
      rw [List.dropWhile_cons, if_neg]
      simp [h1 a rfl]
  rw [e1]
  have e2 : s.reverse.dropWhile Char.isWhitespace = s.reverse := by
    cases hr : s.reverse with
    | nil => rfl
    | cons a t =>
      have ha : s.getLast? = some a := by
        rw [List.getLast?_eq_head?_reverse, hr, List.head?_cons]
      rw [List.dropWhile_cons, if_neg]
      simp [h2 a ha]
  rw [e2, List.reverse_reverse]

theorem hasDD_eq_false_of_not_mem {s : List Char} (h : '$' ∉ s) :
    hasDD s = false := by
  induction s with
  | nil => rfl
  | cons c t ih =>
    have hc : c ≠ '$' := fun e => h (e ▸ List.mem_cons_self c t)
    simp only [hasDD, hc, decide_False, Bool.false_and, Bool.false_or]
    exact ih fun m => h (List.mem_cons_of_mem _ m)

theorem hasDD_append_of_not_mem {a : List Char} (s : List Char) (ha : '$' ∉ a) :
    hasDD (a ++ s) = hasDD s := by
  induction a with
  | nil => rfl
  | cons c t ih =>
    have hc : c ≠ '$' := fun e => ha (e ▸ List.mem_cons_self c t)
    simp only [List.cons_append, hasDD, hc, decide_False, Bool.false_and,
      Bool.false_or]
    exact ih fun m => ha (List.mem_cons_of_mem _ m)

theorem hasDD_cons_eq {c : Char} {s : List Char}
    (h : c ≠ '$' ∨ s.head? ≠ some '$') : hasDD (c :: s) = hasDD s := by
  rcases h with h | h <;> simp [hasDD, h]

theorem afterLastDD_of_hasDD_false {s : List Char} (h : hasDD s = false) :
    afterLastDD s = s := by
  match s with
  | [] => rfl
  | [c] => rfl
  | c :: d :: t =>
    have h1 : ¬(c = '$' ∧ d = '$') := by
      rintro ⟨e1, e2⟩
      simp [hasDD, e1, e2] at h
    have h2 : hasDD (d :: t) = false := by
      simp only [hasDD, Bool.or_eq_false_iff] at h ⊢
      exact h.2
    rw [afterLastDD, if_neg h1, if_neg (by simp [h2])]

theorem afterLastDD_dd_cons (s : List Char) :
    afterLastDD ('$' :: '$' :: s) = afterLastDD s := by
  rw [afterLastDD]
  simp

theorem splitOn_star_append {l₁ l₂ : List Char} (h1 : '*' ∉ l₁) (h2 : '*' ∉ l₂) :
    (l₁ ++ '*' :: l₂).splitOn '*' = [l₁, l₂] := by
  have hx1 : ∀ x ∈ l₁, ¬((x == '*') = true) := by
    intro x hx hbeq
    exact h1 (by rwa [eq_of_beq hbeq] at hx)
  have hx2 : ∀ x ∈ l₂, ¬((x == '*') = true) := by
    intro x hx hbeq
    exact h2 (by rwa [eq_of_beq hbeq] at hx)
  show (l₁ ++ '*' :: l₂).splitOnP (· == '*') = [l₁, l₂]
  rw [List.splitOnP_first (· == '*') l₁ hx1 '*' (by simp),
    List.splitOnP_eq_single (· == '*') l₂ hx2]

/-- The sentence assembled the way the claim (and the source's own test
harness) describes: telemetry portion, `*`, CRC16-CCITT hex digest of the
telemetry portion, prefixed by the `$$` start marker. -/
def mkSentence (telem : List Char) : List Char :=
  '$' :: '$' :: (telem ++ '*' :: crc16_ccitt (telem.map Char.toNat))

theorem charBytes_lt (telem : List Char) (hascii : ∀ c ∈ telem, c.toNat < 128) :
    ∀ b ∈ telem.map Char.toNat, b < 256 := by
  intro b hb
  obtain ⟨c, hc, rfl⟩ := List.mem_map.mp hb
  exact lt_trans (hascii c hc) (by norm_num)

theorem pyStrip_sentence (telem hex : List Char)
    (hhex : ∀ x ∈ hex, x.isWhitespace = false) (hne : hex ≠ []) :
    pyStrip ('$' :: '$' :: (telem ++ '*' :: hex)) =
      '$' :: '$' :: (telem ++ '*' :: hex) := by
  apply pyStrip_eq_self
  · intro c hc
    simp only [List.head?_cons, Option.some_inj] at hc
    subst hc
    decide
  · intro c hc
    obtain ⟨y, hy⟩ : ∃ y, hex.getLast? = some y := by
      cases hhx : hex.getLast? with
      | none => exact absurd (List.getLast?_eq_none_iff.mp hhx) hne
      | some y => exact ⟨y, rfl⟩
    have h1 : ('$' :: '$' :: (telem ++ '*' :: hex)).getLast? = some y := by
      have e : '$' :: '$' :: (telem ++ '*' :: hex) =
          (('$' :: '$' :: telem) ++ ['*']) ++ hex := by simp
      rw [e, List.getLast?_append, hy]
      rfl
    rw [h1, Option.some_inj] at hc
    subst hc
    exact hhex y (List.mem_of_getLast?_eq_some hy)

/-- After the `$$` prefix is consumed, a sentence body free of `"$$"` is
returned whole by the `split("$$")[-1]` step. -/
theorem afterLastDD_sentence (body : List Char) (h : hasDD body = false) :
    afterLastDD ('$' :: '$' :: body) = body := by
  rw [afterLastDD_dd_cons, afterLastDD_of_hasDD_false h]

theorem stripLeadDollar_sentence {telem : List Char} (hex : List Char)
    (hdollar : ∀ c, telem.head? = some c → c ≠ '$') :
    stripLeadDollar (telem ++ '*' :: hex) = some (telem ++ '*' :: hex) := by
  cases telem with
  | nil => rfl
  | cons c t =>
    simp only [List.cons_append, stripLeadDollar, Option.some_inj]
    rw [if_neg (hdollar c rfl)]

theorem splitTelemCrc_sentence {l₁ l₂ : List Char} (h1 : '*' ∉ l₁)
    (h2 : '*' ∉ l₂) : splitTelemCrc (l₁ ++ '*' :: l₂) = some (l₁, l₂) := by
  unfold splitTelemCrc
  rw [splitOn_star_append h1 h2]

/-- Decoding a well-assembled sentence reduces to the field checks: the
strip, `$$`-split, `*`-split, ASCII-encode and CRC-verification steps all
succeed, and the CRC comparison compares the digest with itself. -/
theorem decode_mkSentence (telem : List Char)
    (hascii : ∀ c ∈ telem, c.toNat < 128)
    (hdollar : '$' ∉ telem) (hstar : '*' ∉ telem) :
    decode_ukhas_sentence (mkSentence telem) = decodeFields (telem.splitOn ',') := by
  have hhexmem : ∀ x ∈ crc16_ccitt (telem.map Char.toNat),
      x.toNat < 128 ∧ x ≠ '$' ∧ x ≠ '*' ∧ x.isWhitespace = false :=
    fun x hx => toHex4_mem hx
  have hhexne : crc16_ccitt (telem.map Char.toNat) ≠ [] := toHex4_ne_nil _
  have hDD : hasDD (telem ++ '*' :: crc16_ccitt (telem.map Char.toNat)) = false := by
    rw [hasDD_append_of_not_mem _ hdollar, hasDD_cons_eq (Or.inl (by decide))]
    exact hasDD_eq_false_of_not_mem fun m => ((hhexmem _ m).2.1 rfl).elim
  unfold decode_ukhas_sentence mkSentence
  rw [pyStrip_sentence telem _ (fun x hx => (hhexmem x hx).2.2.2) hhexne,
    afterLastDD_sentence _ hDD,
    stripLeadDollar_sentence _ (fun c hc e => by
      subst e
      exact hdollar (List.mem_of_mem_head? hc)),
    Option.some_bind,
    splitTelemCrc_sentence hstar (fun m => ((hhexmem _ m).2.2.1 rfl).elim),
    Option.some_bind]
  show (charsToBytes telem).bind _ = _
  rw [show charsToBytes telem = some (telem.map Char.toNat) from if_pos (by
    rw [List.all_eq_true]
    intro c hc
    simpa using hascii c hc), Option.some_bind]
  show (if crc16_ccitt (telem.map Char.toNat) ≠ crc16_ccitt (telem.map Char.toNat)
    then none else decodeFields (telem.splitOn ',')) = _
  rw [if_neg (by simp)]

/-- Evaluation of the field checks when the field list is explicit and the
numeric fields parse. -/
theorem decodeFields_cons (cal seq tim latS lonS altS : List Char)
    (extra : List (List Char)) {lat lon : ℚ} {alt : ℤ}
    (hlat : pyFloat latS = some lat) (hlon : pyFloat lonS = some lon)
    (halt : pyInt altS = some alt) :
    decodeFields (cal :: seq :: tim :: latS :: lonS :: altS :: extra) =
      (if (parseTimeHMS tim).isNone then none
      else if lat = 0 ∨ lon = 0 then none
      else if alt > 65535 ∨ alt < 0 then none
      else some ⟨cal, tim, lat, lon, alt⟩) := by
  show (pyFloat latS).bind _ = _
  rw [hlat, Option.some_bind, hlon, Option.some_bind, halt, Option.some_bind]

theorem hexDig_injOn : ∀ m < 16, ∀ n < 16, hexDig m = hexDig n → m = n := by
  decide

theorem toHex4_injOn {a b : ℕ} (ha : a < 65536) (hb : b < 65536)
    (h : toHex4 a = toHex4 b) : a = b := by
  simp only [toHex4, List.cons.injEq, and_true] at h
  obtain ⟨h1, h2, h3, h4⟩ := h
  have m16 : ∀ x : ℕ, x % 16 < 16 := fun x => Nat.mod_lt _ (by norm_num)
  have e1 := hexDig_injOn _ (m16 _) _ (m16 _) h1
  have e2 := hexDig_injOn _ (m16 _) _ (m16 _) h2
  have e3 := hexDig_injOn _ (m16 _) _ (m16 _) h3
  have e4 := hexDig_injOn _ (m16 _) _ (m16 _) h4
  omega

theorem crc16_ccitt_inj {l₁ l₂ : List ℕ} (h₁ : ∀ x ∈ l₁, x < 256)
    (h₂ : ∀ x ∈ l₂, x < 256) (hne : crc16 l₁ ≠ crc16 l₂) :
    crc16_ccitt l₁ ≠ crc16_ccitt l₂ := fun h =>
  hne (toHex4_injOn (crc16_lt l₁ h₁) (crc16_lt l₂ h₂) h)

/-- Dropping the first byte always changes the CRC: the initial state
`0xFFFF` is not fixed by any byte. -/
theorem crc16_drop_head_ne {b : ℕ} (l : List ℕ) (hb : b < 256)
    (hl : ∀ x ∈ l, x < 256) : crc16 l ≠ crc16 (b :: l) := by
  unfold crc16
  simp only [List.foldl_cons]
  intro h
  have := crcFold_state_injOn (by norm_num) (crcByte_lt (by norm_num) hb) l hl h
  exact crcByte_ffff_ne b hb this.symm

theorem char_toNat_inj {a b : Char} (h : a.toNat = b.toNat) : a = b := by
  have := congrArg Char.ofNat h
  rwa [Char.ofNat_toNat, Char.ofNat_toNat] at this

theorem hasDD_body {telem hex : List Char}
    (hdollar : '$' ∉ telem) (hhexdollar : '$' ∉ hex) :
    hasDD (telem ++ '*' :: hex) = false := by
  rw [hasDD_append_of_not_mem _ hdollar, hasDD_cons_eq (Or.inl (by decide))]
  exact hasDD_eq_false_of_not_mem hhexdollar

/-- Changing one character of the telemetry portion to anything other than
`*` (the fragment separator) makes `decode_ukhas_sentence` reject the
re-assembled sentence: the CRC of the altered telemetry no longer matches
the appended digest (and a non-ASCII replacement already fails at the
encode step). -/
theorem decode_mutated_eq_none (p s : List Char) (b c' : Char)
    (hascii : ∀ c ∈ p ++ b :: s, c.toNat < 128)
    (hdollar : '$' ∉ p ++ b :: s) (hstar : '*' ∉ p ++ b :: s)
    (hne : c' ≠ b) (hstarc : c' ≠ '*') :
    decode_ukhas_sentence
      ('$' :: '$' ::
        ((p ++ c' :: s) ++ '*' :: crc16_ccitt ((p ++ b :: s).map Char.toNat))) =
      none := by
  have hdp : '$' ∉ p := fun m => hdollar (List.mem_append_left _ m)
  have hds : '$' ∉ s := fun m =>
    hdollar (List.mem_append_right _ (List.mem_cons_of_mem _ m))
  have hsp : '*' ∉ p := fun m => hstar (List.mem_append_left _ m)
  have hss : '*' ∉ s := fun m =>
    hstar (List.mem_append_right _ (List.mem_cons_of_mem _ m))
  have hsb : b ≠ '*' := fun e =>
    hstar (List.mem_append_right _ (e ▸ List.mem_cons_self _ _))
  have has : ∀ c ∈ s, c.toNat < 128 := fun c m =>
    hascii c (List.mem_append_right _ (List.mem_cons_of_mem _ m))
  have hap : ∀ c ∈ p, c.toNat < 128 := fun c m =>
    hascii c (List.mem_append_left _ m)
  have hab : b.toNat < 128 :=
    hascii b (List.mem_append_right _ (List.mem_cons_self _ _))
  have hbytes : ∀ x ∈ (p ++ b :: s).map Char.toNat, x < 256 :=
    charBytes_lt _ hascii
  have hhexmem : ∀ x ∈ crc16_ccitt ((p ++ b :: s).map Char.toNat),
      x.toNat < 128 ∧ x ≠ '$' ∧ x ≠ '*' ∧ x.isWhitespace = false :=
    fun x hx => toHex4_mem hx
  have hhexdollar : '$' ∉ crc16_ccitt ((p ++ b :: s).map Char.toNat) :=
    fun m => (hhexmem _ m).2.1 rfl
  have hhexstar : '*' ∉ crc16_ccitt ((p ++ b :: s).map Char.toNat) :=
    fun m => (hhexmem _ m).2.2.1 rfl
  have hheads : ∀ x, ∀ hex0 : List Char,
      (s ++ '*' :: hex0).head? = some x → x ≠ '$' := by
    intro x hex0 hx
    cases s with
    | nil =>
      simp only [List.nil_append, List.head?_cons, Option.some_inj] at hx
      subst hx
      decide
    | cons y t =>
      simp only [List.cons_append, List.head?_cons, Option.some_inj] at hx
      subst hx
      exact fun e => hds (e ▸ List.mem_cons_self _ _)
  unfold decode_ukhas_sentence
  rw [pyStrip_sentence _ _ (fun x hx => (hhexmem x hx).2.2.2)
    (toHex4_ne_nil _)]
  by_cases hc : p = [] ∧ c' = '$'
  · obtain ⟨rfl, rfl⟩ := hc
    simp only [List.nil_append, List.cons_append]
    rw [afterLastDD_dd_cons]
    have h1 : hasDD ('$' :: (s ++ '*' :: crc16_ccitt ((b :: s).map Char.toNat)))
        = false := by
      rw [hasDD_cons_eq (Or.inr fun hh => hheads '$' _ hh rfl)]
      exact hasDD_body hds (by simpa using hhexdollar)
    rw [afterLastDD_of_hasDD_false h1]
    show (some (s ++ '*' :: crc16_ccitt ((b :: s).map Char.toNat))).bind _ = none
    rw [Option.some_bind, splitTelemCrc_sentence hss (by simpa using hhexstar),
      Option.some_bind]
    show (charsToBytes s).bind _ = none
    rw [show charsToBytes s = some (s.map Char.toNat) from if_pos (by
      rw [List.all_eq_true]
      intro c hc0
      simpa using has c hc0), Option.some_bind]
    rw [if_pos]
    apply crc16_ccitt_inj (charBytes_lt s has) (by simpa using hbytes)
    rw [List.map_cons]
    exact crc16_drop_head_ne _ (lt_trans hab (by norm_num))
      (charBytes_lt s has)
  · have hheadne : ∀ x, (p ++ c' :: s).head? = some x → x = '$' → False := by
      cases p with
      | nil =>
        intro x hx e
        simp only [List.nil_append, List.head?_cons, Option.some_inj] at hx
        exact hc ⟨rfl, by rw [hx, e]⟩
      | cons q t =>
        intro x hx e
        simp only [List.cons_append, List.head?_cons, Option.some_inj] at hx
        exact hdp (by rw [← hx] at e; exact e ▸ List.mem_cons_self _ _)
    have hDD : hasDD ((p ++ c' :: s) ++
        '*' :: crc16_ccitt ((p ++ b :: s).map Char.toNat)) = false := by
      rw [List.append_assoc, List.cons_append,
        hasDD_append_of_not_mem _ hdp,
        hasDD_cons_eq (Or.inr fun hh => hheads '$' _ hh rfl)]
      exact hasDD_body hds hhexdollar
    rw [afterLastDD_dd_cons, afterLastDD_of_hasDD_false hDD,
      stripLeadDollar_sentence _ (fun x hx e => hheadne x hx e), Option.some_bind,
      splitTelemCrc_sentence (by
        intro m
        rcases List.mem_append.mp m with m | m
        · exact hsp m
        · rcases List.mem_cons.mp m with e | m
          · exact hstarc e.symm
          · exact hss m) hhexstar,
      Option.some_bind]
    by_cases hca : c'.toNat < 128
    · show (charsToBytes (p ++ c' :: s)).bind _ = none
      rw [show charsToBytes (p ++ c' :: s) =
          some ((p ++ c' :: s).map Char.toNat) from if_pos (by
        rw [List.all_eq_true]
        intro c hc0
        rcases List.mem_append.mp hc0 with m | m
        · simpa using hap c m
        · rcases List.mem_cons.mp m with e | m
          · subst e
            simpa using hca
          · simpa using has c m), Option.some_bind]
      rw [if_pos]
      apply crc16_ccitt_inj
      · intro x hx
        obtain ⟨c, hcm, rfl⟩ := List.mem_map.mp hx
        rcases List.mem_append.mp hcm with m | m
        · exact lt_trans (hap c m) (by norm_num)
        · rcases List.mem_cons.mp m with e | m
          · subst e
            exact lt_trans hca (by norm_num)
          · exact lt_trans (has c m) (by norm_num)
      · exact hbytes
      · simp only [List.map_append, List.map_cons]
        apply crc16_single_byte_change (p.map Char.toNat) (s.map Char.toNat)
          (charBytes_lt p hap) (charBytes_lt s has)
          (lt_trans hca (by norm_num)) (lt_trans hab (by norm_num))
        exact fun e => hne (char_toNat_inj e)
    · show (charsToBytes (p ++ c' :: s)).bind _ = none
      rw [show charsToBytes (p ++ c' :: s) = none from if_neg (by
        intro hall
        rw [List.all_eq_true] at hall
        have := hall c' (List.mem_append_right _ (List.mem_cons_self _ _))
        simp only [decide_eq_true_eq] at this
        exact hca this)]
      rfl

/-! ## Concrete sentences used by the counterexamples and witnesses -/

/-- `TESTING,1,01:02:03,0.0,138.0,1000` — valid except that the latitude
field is exactly `0.0` while the longitude is non-zero. -/
def telemZeroLat : List Char :=
  ['T','E','S','T','I','N','G',',','1',',','0','1',':','0','2',':','0','3',
   ',','0','.','0',',','1','3','8','.','0',',','1','0','0','0']

/-- `TESTING,1,01:02:03,-34.0,138.0,1000` — a nominal valid telemetry
string (the one in the source's own `__main__` test). -/
def telemNominal : List Char :=
  ['T','E','S','T','I','N','G',',','1',',','0','1',':','0','2',':','0','3',
   ',','-','3','4','.','0',',','1','3','8','.','0',',','1','0','0','0']

/-- `telemNominal` with one extra (ignored) field that happens to be the
CRC16 hex digest of `telemNominal` itself. -/
def telemDigestField : List Char :=
  ['T','E','S','T','I','N','G',',','1',',','0','1',':','0','2',':','0','3',
   ',','-','3','4','.','0',',','1','3','8','.','0',',','1','0','0','0',
   ',','1','9','9','B']

/-- The part of `telemDigestField` before its last comma. -/
def telemDigestPre : List Char := telemNominal

/-- The part of `telemDigestField` after its last comma. -/
def telemDigestSuf : List Char := ['1','9','9','B']

/-! ## Claim C1 -/

set_option maxRecDepth 400000 in
/-- C1 counterexample: an otherwise-valid sentence (correct CRC by
construction, parsable time, altitude 1000) whose latitude field is `0.0`
while the longitude field is `138.0 ≠ 0.0` is **rejected** by
`decode_ukhas_sentence`, whereas the claim says such a sentence parses
successfully: the source rejects on `_latitude == 0.0 or _longitude ==
0.0`, not only when both are zero. -/
theorem decode_zero_lat_only_counterexample :
    decode_ukhas_sentence (mkSentence telemZeroLat) = none ∧
    pyFloat ['0', '.', '0'] = some 0 ∧
    pyFloat ['1', '3', '8', '.', '0'] = some 138 ∧ (138 : ℚ) ≠ 0 ∧
    (parseTimeHMS ['0', '1', ':', '0', '2', ':', '0', '3']).isSome = true ∧
    pyInt ['1', '0', '0', '0'] = some 1000 := by
  decide

/-- C1 (amended): for every sentence assembled from a telemetry string with
correct CRC (by construction), ASCII characters, no `$`/`*` inside, whose
time field parses as HH:MM:SS and whose altitude lies within `[0, 65535]`,
`decode_ukhas_sentence` rejects **exactly when the latitude is 0.0 or the
longitude is 0.0** (the source tests `_latitude == 0.0 or _longitude ==
0.0`); when neither is zero the parse succeeds and returns the original
callsign, time, latitude, longitude and altitude. -/
theorem decode_rejects_iff_zero_lat_or_lon
    (telem cal seq tim latS lonS altS : List Char) (extra : List (List Char))
    (lat lon : ℚ) (alt : ℤ)
    (hascii : ∀ c ∈ telem, c.toNat < 128)
    (hdollar : '$' ∉ telem) (hstar : '*' ∉ telem)
    (hsplit : telem.splitOn ',' = cal :: seq :: tim :: latS :: lonS :: altS :: extra)
    (htime : (parseTimeHMS tim).isSome = true)
    (hlat : pyFloat latS = some lat) (hlon : pyFloat lonS = some lon)
    (halt : pyInt altS = some alt) (halt0 : 0 ≤ alt) (halt1 : alt ≤ 65535) :
    (decode_ukhas_sentence (mkSentence telem) = none ↔ lat = 0 ∨ lon = 0) ∧
      (lat ≠ 0 → lon ≠ 0 →
        decode_ukhas_sentence (mkSentence telem) =
          some ⟨cal, tim, lat, lon, alt⟩) := by
  obtain ⟨t0, ht0⟩ := Option.isSome_iff_exists.mp htime
  rw [decode_mkSentence telem hascii hdollar hstar, hsplit,
    decodeFields_cons cal seq tim latS lonS altS extra hlat hlon halt,
    if_neg (by simp [ht0])]
  constructor
  · by_cases hz : lat = 0 ∨ lon = 0
    · rw [if_pos hz]
      simp [hz]
    · rw [if_neg hz, if_neg (by omega)]
      simp [hz]
  · intro h1 h2
    rw [if_neg (by tauto), if_neg (by omega)]

set_option maxRecDepth 400000 in
/-- C1 witness: the amended statement applied to the nominal sentence with
latitude field `0.0`, longitude `138.0`. -/
theorem decode_rejects_iff_zero_witness :
    (decode_ukhas_sentence (mkSentence telemZeroLat) = none ↔
      (0 : ℚ) = 0 ∨ (138 : ℚ) = 0) ∧
    ((0 : ℚ) ≠ 0 → (138 : ℚ) ≠ 0 →
      decode_ukhas_sentence (mkSentence telemZeroLat) =
        some ⟨['T','E','S','T','I','N','G'], ['0','1',':','0','2',':','0','3'],
          0, 138, 1000⟩) :=
  decode_rejects_iff_zero_lat_or_lon telemZeroLat
    ['T','E','S','T','I','N','G'] ['1'] ['0','1',':','0','2',':','0','3']
    ['0','.','0'] ['1','3','8','.','0'] ['1','0','0','0'] [] 0 138 1000
    (by decide) (by decide) (by decide) (by decide) (by decide) (by decide)
    (by decide) (by decide) (by decide) (by decide)

/-! ## Claim C5 -/

set_option maxRecDepth 400000 in
/-- C5 counterexample: the sentence assembled from `telemDigestField` is
valid and parses; yet replacing the single character `,` (the one before
its final field) with `*` yields a sentence that **still parses
successfully** — the `*` split now pairs the shortened telemetry with its
own digest, which the final field happens to equal — whereas the claim
says any single-character change of the telemetry portion makes the CRC
validation fail and the parse return failure. -/
theorem ukhas_star_substitution_counterexample :
    telemDigestField = telemDigestPre ++ ',' :: telemDigestSuf ∧
    ('*' : Char) ≠ ',' ∧
    decode_ukhas_sentence (mkSentence telemDigestField) =
      some ⟨['T','E','S','T','I','N','G'], ['0','1',':','0','2',':','0','3'],
        -34, 138, 1000⟩ ∧
    decode_ukhas_sentence
      ('$' :: '$' :: ((telemDigestPre ++ '*' :: telemDigestSuf) ++ '*' ::
        crc16_ccitt (telemDigestField.map Char.toNat))) =
      some ⟨['T','E','S','T','I','N','G'], ['0','1',':','0','2',':','0','3'],
        -34, 138, 1000⟩ := by
  decide

/-- C5 (amended): for every telemetry string with ASCII characters, no
`$`/`*` inside, well-formed fields (parsable time, non-zero latitude and
longitude, altitude in `[0, 65535]`), appending `*` plus the
CRC16-CCITT-false digest and parsing recovers exactly the original
callsign, time, latitude, longitude and altitude; and changing any single
character of the telemetry portion **to any character other than `*`**
makes the parse fail (the CRC validation fails — or, for a non-ASCII
replacement, the ASCII encoding step fails first). -/
theorem ukhas_roundtrip_and_single_change
    (telem cal seq tim latS lonS altS : List Char) (extra : List (List Char))
    (lat lon : ℚ) (alt : ℤ)
    (hascii : ∀ c ∈ telem, c.toNat < 128)
    (hdollar : '$' ∉ telem) (hstar : '*' ∉ telem)
    (hsplit : telem.splitOn ',' = cal :: seq :: tim :: latS :: lonS :: altS :: extra)
    (htime : (parseTimeHMS tim).isSome = true)
    (hlat : pyFloat latS = some lat) (hlat0 : lat ≠ 0)
    (hlon : pyFloat lonS = some lon) (hlon0 : lon ≠ 0)
    (halt : pyInt altS = some alt) (halt0 : 0 ≤ alt) (halt1 : alt ≤ 65535) :
    decode_ukhas_sentence (mkSentence telem) =
      some ⟨cal, tim, lat, lon, alt⟩ ∧
    ∀ pre suf : List Char, ∀ b c' : Char,
      telem = pre ++ b :: suf → c' ≠ b → c' ≠ '*' →
      decode_ukhas_sentence
        ('$' :: '$' :: ((pre ++ c' :: suf) ++ '*' ::
          crc16_ccitt (telem.map Char.toNat))) = none := by
  constructor
  · obtain ⟨t0, ht0⟩ := Option.isSome_iff_exists.mp htime
    rw [decode_mkSentence telem hascii hdollar hstar, hsplit,
      decodeFields_cons cal seq tim latS lonS altS extra hlat hlon halt,
      if_neg (by simp [ht0]), if_neg (by tauto), if_neg (by omega)]
  · intro pre suf b c' hdec hne hstarc
    subst hdec
    exact decode_mutated_eq_none pre suf b c' hascii hdollar hstar hne hstarc

set_option maxRecDepth 400000 in
/-- C5 witness: the round-trip at the source's own nominal test sentence. -/
theorem ukhas_roundtrip_witness :
    decode_ukhas_sentence (mkSentence telemNominal) =
      some ⟨['T','E','S','T','I','N','G'], ['0','1',':','0','2',':','0','3'],
        -34, 138, 1000⟩ :=
  (ukhas_roundtrip_and_single_change telemNominal
    ['T','E','S','T','I','N','G'] ['1'] ['0','1',':','0','2',':','0','3']
    ['-','3','4','.','0'] ['1','3','8','.','0'] ['1','0','0','0'] []
    (-34) 138 1000
    (by decide) (by decide) (by decide) (by decide) (by decide) (by decide)
    (by decide) (by decide) (by decide) (by decide) (by decide)
    (by decide)).1

/-! ## `FFTProcess` (`horusgui/fft.py`)

The sample buffer is a byte string (`bytearray`); `nfft` and `stride` are
counted in samples of `sample_width` bytes.  `perform_fft` reads the first
`nfft * sample_width` bytes as `np.int16` (little-endian signed 16-bit),
normalises by `2^15`, then advances the buffer by `stride * sample_width`
bytes. -/

/-- Little-endian signed 16-bit value of one byte pair (`np.int16`). -/
def int16OfBytes (b0 b1 : ℕ) : ℤ :=
  if b0 + 256 * b1 < 32768 then ((b0 + 256 * b1 : ℕ) : ℤ)
  else ((b0 + 256 * b1 : ℕ) : ℤ) - 65536

/-- `np.fromstring(..., dtype=np.int16)`: decode consecutive byte pairs
(an odd trailing byte would make numpy raise; buffer lengths in use are
even). -/
def decodeInt16 : List ℕ → List ℤ
  | b0 :: b1 :: rest => int16OfBytes b0 b1 :: decodeInt16 rest
  | _ => []

/-- What one `perform_fft` call emits.

* `signalSpectrum samples peak` stands for emitting the masked spectrum
  `20*log10(|fftshift(fft(samples * window))|) − 20*log10(nfft)` together
  with `dbfs = 20*log10(peak)`, where `samples` are the normalised samples
  and `peak = samples.max()` (the **signed** maximum, which the source
  requires to be positive to take this branch);
* `nanSpectrum` stands for emitting the all-NaN masked spectrum together
  with `dbfs = −99.0` exactly. -/
inductive FFTEmission where
  | signalSpectrum (samples : List ℚ) (peak : ℚ)
  | nanSpectrum
  deriving DecidableEq, Repr

/-- The normalised FFT input: the first `nfft` 16-bit samples of the
buffer, divided by `2^15` (`mkRat v 32768 = v / 2^15` exactly). -/
def fft_input (nfft : ℕ) (buf : List ℕ) : List ℚ :=
  (decodeInt16 (buf.take (nfft * 2))).map fun v => mkRat v 32768

/-- `FFTProcess.perform_fft` (with `sample_width = 2`, the width of
`np.int16`): note the branch is on `raw_data.max() > 0` — the signed
maximum, not the maximum absolute value.  (`np.max` raises on an empty
array; callers only invoke this with at least `nfft ≥ 1` samples
buffered, so the `none` row is unreachable there.) -/
def perform_fft (nfft stride : ℕ) (buf : List ℕ) : FFTEmission × List ℕ :=
  let raw := fft_input nfft buf
  let buf' := buf.drop (stride * 2)
  match raw.max? with
  | some m =>
    if 0 < m then (.signalSpectrum raw m, buf') else (.nanSpectrum, buf')
  | none => (.nanSpectrum, buf')

/-- The drain loop of `process_block`, at the byte level, recording each
FFT input window (first `nw` bytes at the time of the call) and advancing
by `sw` bytes, as long as the buffer holds **more than** `nw` bytes.  The
fuel argument only bounds the recursion: `buf.length` steps always
suffice because each iteration removes `sw ≥ 1` bytes (with `sw = 0` the
Python loop would never terminate; every use has `stride ≥ 1` and
`sample_width ≥ 1`). -/
def drainGo (nw sw : ℕ) : ℕ → List ℕ → List (List ℕ) → List ℕ × List (List ℕ)
  | 0, buf, acc => (buf, acc)
  | fuel + 1, buf, acc =>
    if nw < buf.length ∧ 0 < sw then
      drainGo nw sw fuel (buf.drop sw) (acc ++ [buf.take nw])
    else (buf, acc)

/-- The `while len(self.sample_buffer) > self.nfft * self.sample_width`
loop body of `process_block`. -/
def drainBuffer (nw sw : ℕ) (buf : List ℕ) (acc : List (List ℕ)) :
    List ℕ × List (List ℕ) :=
  drainGo nw sw buf.length buf acc

/-- `FFTProcess.process_block`: extend the buffer with the block, then
drain.  The state is `(sample_buffer, emitted FFT windows)`. -/
def process_block (nfft stride sw : ℕ) (st : List ℕ × List (List ℕ))
    (blk : List ℕ) : List ℕ × List (List ℕ) :=
  drainBuffer (nfft * sw) (stride * sw) (st.1 ++ blk) st.2

theorem drainGo_fuel {nw sw : ℕ} (hsw : 0 < sw) :
    ∀ fuel fuel' buf acc, buf.length ≤ fuel → buf.length ≤ fuel' →
      drainGo nw sw fuel buf acc = drainGo nw sw fuel' buf acc := by
  intro fuel
  induction fuel with
  | zero =>
    intro fuel' buf acc h h'
    have : buf = [] := List.length_eq_zero.mp (Nat.le_zero.mp h)
    subst this
    cases fuel' with
    | zero => rfl
    | succ f => simp [drainGo]
  | succ f ih =>
    intro fuel' buf acc h h'
    cases fuel' with
    | zero =>
      have : buf = [] := List.length_eq_zero.mp (Nat.le_zero.mp h')
      subst this
      simp [drainGo]
    | succ f' =>
      simp only [drainGo]
      split
      · rename_i hcond
        apply ih
        · simp only [List.length_drop]
          omega
        · simp only [List.length_drop]
          omega
      · rfl

/-- Exit-condition equation: with at most `nw` bytes buffered, the drain
loop does nothing. -/
theorem drainBuffer_exit {nw sw : ℕ} {buf : List ℕ} (acc : List (List ℕ))
    (h : ¬(nw < buf.length ∧ 0 < sw)) :
    drainBuffer nw sw buf acc = (buf, acc) := by
  unfold drainBuffer
  cases buf with
  | nil => rfl
  | cons x t =>
    simp only [List.length_cons, drainGo]
    rw [if_neg (by simpa using h)]

/-- Step equation: with more than `nw` bytes buffered (and a positive
advance), one window is recorded and the buffer advances by `sw` bytes. -/
theorem drainBuffer_step {nw sw : ℕ} {buf : List ℕ} (acc : List (List ℕ))
    (h : nw < buf.length ∧ 0 < sw) :
    drainBuffer nw sw buf acc =
      drainBuffer nw sw (buf.drop sw) (acc ++ [buf.take nw]) := by
  unfold drainBuffer
  cases buf with
  | nil => simp at h
  | cons x t =>
    simp only [List.length_cons, drainGo]
    rw [if_pos (by simpa using h)]
    apply drainGo_fuel h.2 <;> simp only [List.length_drop, List.length_cons] <;>
      omega

theorem drainBuffer_post_aux {nw sw : ℕ} (hsw : 0 < sw) :
    ∀ n (buf : List ℕ) (acc : List (List ℕ)), buf.length ≤ n →
      (drainBuffer nw sw buf acc).1.length ≤ nw := by
  intro n
  induction n with
  | zero =>
    intro buf acc h
    have : buf = [] := List.length_eq_zero.mp (Nat.le_zero.mp h)
    subst this
    rw [drainBuffer_exit _ (by simp)]
    simp
  | succ k ih =>
    intro buf acc h
    by_cases hc : nw < buf.length ∧ 0 < sw
    · rw [drainBuffer_step _ hc]
      apply ih
      simp only [List.length_drop]
      omega
    · rw [drainBuffer_exit _ hc]
      simp only at hc ⊢
      omega

/-- After `process_block` returns, the buffer holds at most
`nfft * sample_width` bytes. -/
theorem drainBuffer_post {nw sw : ℕ} (hsw : 0 < sw) (buf : List ℕ)
    (acc : List (List ℕ)) : (drainBuffer nw sw buf acc).1.length ≤ nw :=
  drainBuffer_post_aux hsw buf.length buf acc le_rfl

theorem drainBuffer_windows_aux {nw sw : ℕ} (hsw : 0 < sw) :
    ∀ n (buf : List ℕ) (acc : List (List ℕ)), buf.length ≤ n →
      ∃ m, drainBuffer nw sw buf acc =
        (buf.drop (m * sw),
         acc ++ (List.range m).map fun k => (buf.drop (k * sw)).take nw) := by
  intro n
  induction n with
  | zero =>
    intro buf acc h
    have : buf = [] := List.length_eq_zero.mp (Nat.le_zero.mp h)
    subst this
    refine ⟨0, ?_⟩
    rw [drainBuffer_exit _ (by simp)]
    simp
  | succ k ih =>
    intro buf acc h
    by_cases hc : nw < buf.length ∧ 0 < sw
    · rw [drainBuffer_step _ hc]
      obtain ⟨m, hm⟩ := ih (buf.drop sw) (acc ++ [buf.take nw]) (by
        simp only [List.length_drop]
        omega)
      refine ⟨m + 1, ?_⟩
      rw [hm]
      simp only [Prod.mk.injEq]
      constructor
      · rw [List.drop_drop]
        congr 1
        ring
      · rw [List.append_assoc]
        congr 1
        rw [List.range_succ_eq_map, List.map_cons, List.map_map]
        simp only [Nat.zero_mul, List.drop_zero, List.singleton_append]
        congr 1
        apply List.map_congr_left
        intro a _
        simp only [Function.comp_apply]
        rw [List.drop_drop]
        congr 2
        rw [Nat.succ_mul]
        exact Nat.add_comm _ _
    · rw [drainBuffer_exit _ hc]
      exact ⟨0, by simp⟩

/-- The drain loop emits exactly the windows starting `stride` samples
apart: window `k` is the `nw`-byte slice at offset `k * sw`. -/
theorem drainBuffer_windows {nw sw : ℕ} (hsw : 0 < sw) (buf : List ℕ)
    (acc : List (List ℕ)) :
    ∃ m, drainBuffer nw sw buf acc =
      (buf.drop (m * sw),
       acc ++ (List.range m).map fun k => (buf.drop (k * sw)).take nw) :=
  drainBuffer_windows_aux hsw buf.length buf acc le_rfl

theorem drainBuffer_append_aux {nw sw : ℕ} (hsw : 0 < sw) (hsn : sw ≤ nw) :
    ∀ n (buf extra : List ℕ) (acc : List (List ℕ)), buf.length ≤ n →
      drainBuffer nw sw (buf ++ extra) acc =
        drainBuffer nw sw ((drainBuffer nw sw buf acc).1 ++ extra)
          (drainBuffer nw sw buf acc).2 := by
  intro n
  induction n with
  | zero =>
    intro buf extra acc h
    have : buf = [] := List.length_eq_zero.mp (Nat.le_zero.mp h)
    subst this
    have he : drainBuffer nw sw ([] : List ℕ) acc = ([], acc) :=
      drainBuffer_exit _ (by simp)
    rw [he]
  | succ k ih =>
    intro buf extra acc h
    by_cases hc : nw < buf.length ∧ 0 < sw
    · have hsb : sw ≤ buf.length := le_trans hsn (le_of_lt hc.1)
      have e1 : (buf ++ extra).drop sw = buf.drop sw ++ extra :=
        List.drop_append_of_le_length hsb
      have e2 : (buf ++ extra).take nw = buf.take nw :=
        List.take_append_of_le_length (le_of_lt hc.1)
      rw [drainBuffer_step _ ⟨by simp only [List.length_append]; omega, hc.2⟩,
        e1, e2,
        ih (buf.drop sw) extra (acc ++ [buf.take nw]) (by
          simp only [List.length_drop]
          omega),
        drainBuffer_step _ hc]
    · rw [drainBuffer_exit _ hc]

/-- Draining commutes with subsequently appended bytes: a drained state is
a faithful summary of the stream seen so far. -/
theorem drainBuffer_append {nw sw : ℕ} (hsw : 0 < sw) (hsn : sw ≤ nw)
    (buf extra : List ℕ) (acc : List (List ℕ)) :
    drainBuffer nw sw (buf ++ extra) acc =
      drainBuffer nw sw ((drainBuffer nw sw buf acc).1 ++ extra)
        (drainBuffer nw sw buf acc).2 :=
  drainBuffer_append_aux hsw hsn buf.length buf extra acc le_rfl

theorem decodeInt16_length : ∀ l : List ℕ, (decodeInt16 l).length = l.length / 2
  | [] => by simp [decodeInt16]
  | [_] => by simp [decodeInt16]
  | b0 :: b1 :: rest => by
    simp only [decodeInt16, List.length_cons, decodeInt16_length rest]
    omega

theorem int16OfBytes_bounds {b0 b1 : ℕ} (h0 : b0 < 256) (h1 : b1 < 256) :
    -32768 ≤ int16OfBytes b0 b1 ∧ int16OfBytes b0 b1 < 32768 := by
  unfold int16OfBytes
  split <;> omega

theorem decodeInt16_bounds : ∀ l : List ℕ, (∀ b ∈ l, b < 256) →
    ∀ z ∈ decodeInt16 l, -32768 ≤ z ∧ z < 32768
  | [], _, z, hz => by simp [decodeInt16] at hz
  | [_], _, z, hz => by simp [decodeInt16] at hz
  | b0 :: b1 :: rest, h, z, hz => by
    simp only [decodeInt16, List.mem_cons] at hz
    rcases hz with e | hz
    · subst e
      exact int16OfBytes_bounds (h b0 (by simp)) (h b1 (by simp))
    · exact decodeInt16_bounds rest
        (fun b hb => h b (by simp [hb])) z hz

theorem mkRat_32768 (v : ℤ) : mkRat v 32768 = (v : ℚ) / 32768 := by
  rw [Rat.mkRat_eq_divInt, Rat.divInt_eq_div]
  norm_num

theorem foldl_max_spec (xs : List ℚ) : ∀ x : ℚ,
    (xs.foldl max x = x ∨ xs.foldl max x ∈ xs) ∧ x ≤ xs.foldl max x ∧
      ∀ y ∈ xs, y ≤ xs.foldl max x := by
  induction xs with
  | nil => simp
  | cons a t ih =>
    intro x
    simp only [List.foldl_cons]
    obtain ⟨h1, h2, h3⟩ := ih (max x a)
    refine ⟨?_, ?_, ?_⟩
    · rcases h1 with h | h
      · rcases max_choice x a with e | e
        · exact Or.inl (by rw [h, e])
        · refine Or.inr ?_
          rw [h, e]
          exact List.mem_cons_self a t
      · exact Or.inr (List.mem_cons_of_mem _ h)
    · exact le_trans (le_max_left x a) h2
    · intro y hy
      rcases List.mem_cons.mp hy with e | hm
      · rw [e]
        exact le_trans (le_max_right x a) h2
      · exact h3 y hm

theorem max?_spec {l : List ℚ} (h : l ≠ []) :
    ∃ m, l.max? = some m ∧ m ∈ l ∧ ∀ x ∈ l, x ≤ m := by
  cases l with
  | nil => exact absurd rfl h
  | cons a t =>
    obtain ⟨h1, h2, h3⟩ := foldl_max_spec t a
    refine ⟨t.foldl max a, rfl, ?_, ?_⟩
    · rcases h1 with e | hm
      · rw [e]
        exact List.mem_cons_self a t
      · exact List.mem_cons_of_mem _ hm
    · intro x hx
      rcases List.mem_cons.mp hx with e | hm
      · exact e ▸ h2
      · exact h3 x hm

/-! ## Claim C2 -/

/-- The all-negative byte block used by the C2 and C3 counterexamples:
four samples, each equal to `-1` (`0xFFFF` little-endian). -/
def negBuf : List ℕ := [255, 255, 255, 255, 255, 255, 255, 255]

/-- C2 counterexample: a block whose samples are all `-1/2^15` — so its
peak **absolute** sample value `1/2^15` is positive, and the claim demands
the windowed spectrum with `dBFS = 20*log10(1/2^15)` — is sent down the
all-NaN/`-99.0` branch by the source, because `perform_fft` branches on
the **signed** maximum `raw_data.max() = -1/2^15 ≤ 0`. -/
theorem perform_fft_all_negative_counterexample :
    perform_fft 4 2 negBuf = (.nanSpectrum, [255, 255, 255, 255]) ∧
    fft_input 4 negBuf =
      [mkRat (-1) 32768, mkRat (-1) 32768, mkRat (-1) 32768, mkRat (-1) 32768] ∧
    mkRat (-1) 32768 ≠ 0 := by
  decide

/-- C2 (amended): `perform_fft` normalises the first `nfft` samples by
`2^15` (each normalised sample lies in `[-1, 1)`), advances the buffer by
`stride` samples (`stride * 2` bytes), and branches on the **signed
maximum** `m` of the normalised block: if `m > 0` it emits the windowed
fftshifted dB spectrum of the block together with `dBFS = 20*log10(m)`
(`signalSpectrum`), and if `m ≤ 0` — e.g. for an all-zero or all-negative
block — it emits the all-NaN masked spectrum with `dBFS` exactly `-99.0`
(`nanSpectrum`), raising no arithmetic exception in either case. -/
theorem perform_fft_branch_spec (nfft stride : ℕ) (buf : List ℕ)
    (hn : 1 ≤ nfft) (hlen : nfft * 2 ≤ buf.length)
    (hbytes : ∀ b ∈ buf, b < 256) :
    ∃ m : ℚ, (fft_input nfft buf).max? = some m ∧ m ∈ fft_input nfft buf ∧
      (∀ x ∈ fft_input nfft buf, x ≤ m) ∧
      (∀ x ∈ fft_input nfft buf, -1 ≤ x ∧ x < 1) ∧
      (0 < m → perform_fft nfft stride buf =
        (.signalSpectrum (fft_input nfft buf) m, buf.drop (stride * 2))) ∧
      (m ≤ 0 → perform_fft nfft stride buf =
        (.nanSpectrum, buf.drop (stride * 2))) := by
  have hne : fft_input nfft buf ≠ [] := by
    unfold fft_input
    rw [← List.length_pos, List.length_map, decodeInt16_length,
      List.length_take]
    omega
  obtain ⟨m, hm, hmem, hle⟩ := max?_spec hne
  refine ⟨m, hm, hmem, hle, ?_, ?_, ?_⟩
  · intro x hx
    unfold fft_input at hx
    obtain ⟨v, hv, rfl⟩ := List.mem_map.mp hx
    have hb := decodeInt16_bounds (buf.take (nfft * 2))
      (fun b hb => hbytes b (List.mem_of_mem_take hb)) v hv
    rw [mkRat_32768]
    constructor
    · rw [le_div_iff₀ (by norm_num)]
      have : (-32768 : ℚ) ≤ (v : ℚ) := by exact_mod_cast hb.1
      linarith
    · rw [div_lt_iff₀ (by norm_num)]
      have : (v : ℚ) < 32768 := by exact_mod_cast hb.2
      linarith
  · intro hpos
    unfold perform_fft
    dsimp only
    rw [hm]
    simp only [if_pos hpos]
  · intro hneg
    unfold perform_fft
    dsimp only
    rw [hm]
    simp only [if_neg (not_lt.mpr hneg)]

set_option maxRecDepth 4096 in
/-- C2 witness: the branch specification applied to the all-negative
block; its signed maximum is `-1/2^15 ≤ 0`, giving the NaN branch. -/
theorem perform_fft_branch_witness :
    ∃ m : ℚ, (fft_input 4 negBuf).max? = some m ∧ m ∈ fft_input 4 negBuf ∧
      (∀ x ∈ fft_input 4 negBuf, x ≤ m) ∧
      (∀ x ∈ fft_input 4 negBuf, -1 ≤ x ∧ x < 1) ∧
      (0 < m → perform_fft 4 2 negBuf =
        (.signalSpectrum (fft_input 4 negBuf) m, negBuf.drop (2 * 2))) ∧
      (m ≤ 0 → perform_fft 4 2 negBuf =
        (.nanSpectrum, negBuf.drop (2 * 2))) :=
  perform_fft_branch_spec 4 2 negBuf (by decide) (by decide) (by decide)

/-! ## Claim C3 -/

theorem drainBuffer_acc_mono_aux {nw sw : ℕ} (hsw : 0 < sw) :
    ∀ n (buf : List ℕ) (acc : List (List ℕ)), buf.length ≤ n →
      acc.length ≤ (drainBuffer nw sw buf acc).2.length := by
  intro n
  induction n with
  | zero =>
    intro buf acc h
    have : buf = [] := List.length_eq_zero.mp (Nat.le_zero.mp h)
    subst this
    rw [drainBuffer_exit _ (by simp)]
  | succ k ih =>
    intro buf acc h
    by_cases hc : nw < buf.length ∧ 0 < sw
    · rw [drainBuffer_step _ hc]
      calc acc.length ≤ (acc ++ [buf.take nw]).length := by simp
        _ ≤ _ := ih _ _ (by simp only [List.length_drop]; omega)
    · rw [drainBuffer_exit _ hc]

set_option maxRecDepth 4096 in
/-- C3 counterexample: feeding exactly `nfft * sample_width` bytes
(`nfft = 4`, `stride = 2`, `sample_width = 2`, 8 bytes) into a fresh
buffer performs **no** FFT — the loop guard is
`len(sample_buffer) > nfft * sample_width`, strictly — and returns with
the buffer holding exactly `nfft * sample_width` bytes, not strictly
fewer as the claim states. -/
theorem process_block_exact_boundary_counterexample :
    process_block 4 2 2 ([], []) negBuf = (negBuf, []) ∧
    negBuf.length = 4 * 2 := by
  decide

/-- C3 (amended): `process_block` appends the given block to
`sample_buffer` and then performs FFTs as long as the buffer holds
**strictly more than** `nfft * sample_width` bytes; in particular, when
after appending the buffer holds at most `nfft * sample_width` bytes
(including exactly that many) no FFT is performed and the state is just
the extended buffer, and when `process_block` returns the buffer always
holds **at most** `nfft * sample_width` bytes. -/
theorem process_block_drain_boundary (nfft stride sw : ℕ)
    (hs : 1 ≤ stride) (hw : 1 ≤ sw)
    (st : List ℕ × List (List ℕ)) (blk : List ℕ) :
    ((st.1 ++ blk).length ≤ nfft * sw →
      process_block nfft stride sw st blk = (st.1 ++ blk, st.2)) ∧
    (nfft * sw < (st.1 ++ blk).length →
      st.2.length < (process_block nfft stride sw st blk).2.length) ∧
    (process_block nfft stride sw st blk).1.length ≤ nfft * sw := by
  have hsw : 0 < stride * sw := Nat.mul_pos hs hw
  refine ⟨?_, ?_, ?_⟩
  · intro hle
    exact drainBuffer_exit _ (by omega)
  · intro hgt
    unfold process_block
    rw [drainBuffer_step _ ⟨hgt, hsw⟩]
    calc st.2.length < (st.2 ++ [(st.1 ++ blk).take (nfft * sw)]).length := by
          simp
      _ ≤ _ := drainBuffer_acc_mono_aux hsw _ _ _ le_rfl
  · exact drainBuffer_post hsw _ _

set_option maxRecDepth 4096 in
/-- C3 witness: the boundary behaviour at the all-negative 8-byte block
with `nfft = 4`, `stride = 2`, `sample_width = 2`. -/
theorem process_block_drain_boundary_witness :
    ((([], []) : List ℕ × List (List ℕ)).1 ++ negBuf).length ≤ 4 * 2 ∧
    process_block 4 2 2 ([], []) negBuf =
      ((([], []) : List ℕ × List (List ℕ)).1 ++ negBuf,
        (([], []) : List ℕ × List (List ℕ)).2) :=
  ⟨by decide,
    (process_block_drain_boundary 4 2 2 (by decide) (by decide) ([], [])
      negBuf).1 (by decide)⟩

/-! ## Claim C4 -/

theorem foldl_process_block {nfft stride sw : ℕ} (hsw : 0 < stride * sw)
    (hsn : stride * sw ≤ nfft * sw) :
    ∀ (blocks : List (List ℕ)) (st : List ℕ × List (List ℕ)),
      st.1.length ≤ nfft * sw →
      blocks.foldl (process_block nfft stride sw) st =
        process_block nfft stride sw st blocks.flatten := by
  intro blocks
  induction blocks with
  | nil =>
    intro st hst
    simp only [List.foldl_nil, List.flatten_nil]
    unfold process_block
    rw [List.append_nil, drainBuffer_exit _ (by omega)]
  | cons b bs ih =>
    intro st hst
    simp only [List.foldl_cons, List.flatten_cons]
    rw [ih (process_block nfft stride sw st b)
      (by unfold process_block; exact drainBuffer_post hsw _ _)]
    unfold process_block
    rw [← List.append_assoc]
    exact (drainBuffer_append hsw hsn _ _ _).symm

/-- C4: feeding a byte stream in any partition into blocks through
`process_block` produces the same state — the same sequence of FFT input
windows and the same final `sample_buffer` — as feeding the whole stream
as one block; and the windows of that run are exactly the
`nfft * sample_width`-byte slices starting `stride` samples
(`stride * sample_width` bytes) apart.  The hypotheses `1 ≤ stride`,
`1 ≤ sample_width` and `stride ≤ nfft` hold for the program's fixed
parameters (`nfft = stride = 2^13`, `sample_width = 2`). -/
theorem process_block_chunk_invariant (nfft stride sw : ℕ)
    (hs : 1 ≤ stride) (hw : 1 ≤ sw) (hsn : stride ≤ nfft)
    (blocks : List (List ℕ)) :
    blocks.foldl (process_block nfft stride sw) ([], []) =
      process_block nfft stride sw ([], []) blocks.flatten ∧
    ∃ m, process_block nfft stride sw ([], []) blocks.flatten =
      (blocks.flatten.drop (m * (stride * sw)),
       (List.range m).map fun k =>
         (blocks.flatten.drop (k * (stride * sw))).take (nfft * sw)) := by
  have hsw : 0 < stride * sw := Nat.mul_pos hs hw
  have hsn' : stride * sw ≤ nfft * sw := Nat.mul_le_mul_right sw hsn
  constructor
  · exact foldl_process_block hsw hsn' blocks ([], []) (by simp)
  · obtain ⟨m, hm⟩ := @drainBuffer_windows (nfft * sw) (stride * sw) hsw
      ([] ++ blocks.flatten) []
    refine ⟨m, ?_⟩
    unfold process_block
    rw [hm]
    simp

set_option maxRecDepth 4096 in
/-- C4 witness: a 6-byte stream fed one byte, two bytes, then three bytes
at a time (`nfft = 2`, `stride = 1`, `sample_width = 1`) equals the
one-block run, whose windows start one byte apart. -/
theorem process_block_chunk_invariant_witness :
    [[1], [2, 3], [4, 5, 6]].foldl (process_block 2 1 1) ([], []) =
      process_block 2 1 1 ([], []) [[1], [2, 3], [4, 5, 6]].flatten ∧
    ∃ m, process_block 2 1 1 ([], []) [[1], [2, 3], [4, 5, 6]].flatten =
      ([[1], [2, 3], [4, 5, 6]].flatten.drop (m * (1 * 1)),
       (List.range m).map fun k =>
         ([[1], [2, 3], [4, 5, 6]].flatten.drop (k * (1 * 1))).take (2 * 1)) :=
  process_block_chunk_invariant 2 1 1 (by decide) (by decide) (by decide)
    [[1], [2, 3], [4, 5, 6]]

/-! ## Claim C9 — `FFTProcess.add_samples` and the bounded input queue -/

/-- `FFTProcess.add_samples`: `self.input_queue.put_nowait(samples)` on the
`Queue(512)` created in `__init__`; `put_nowait` raises `queue.Full` when
the queue already holds 512 items, the bare `except` catches it, logs
`"Input overrun!"` and drops the block.  The returned flag records whether
the overflow was logged.  The function is total: it never raises to its
caller and, being `put_nowait`, never blocks. -/
def add_samples (q : List (List ℕ)) (blk : List ℕ) : List (List ℕ) × Bool :=
  if q.length < 512 then (q ++ [blk], false) else (q, true)

/-- C9: for every sequence of `add_samples` calls with nothing consumed in
between — including more than 512 of them — the call never raises or
blocks (it is a total function of the queue state), the queue size never
exceeds 512, a call on a full queue drops the block and logs the
overflow, and a call on a non-full queue appends the block. -/
theorem add_samples_overflow_policy (blocks : List (List ℕ)) :
    (blocks.foldl (fun q b => (add_samples q b).1) []).length ≤ 512 ∧
    (∀ q blk, q.length = 512 → add_samples q blk = (q, true)) ∧
    (∀ q blk, q.length < 512 → add_samples q blk = (q ++ [blk], false)) := by
  refine ⟨?_, ?_, ?_⟩
  · have inv : ∀ (bs : List (List ℕ)) (q : List (List ℕ)), q.length ≤ 512 →
        (bs.foldl (fun q b => (add_samples q b).1) q).length ≤ 512 := by
      intro bs
      induction bs with
      | nil => intro q hq; simpa using hq
      | cons b t ih =>
        intro q hq
        simp only [List.foldl_cons]
        apply ih
        unfold add_samples
        split
        · simp only [List.length_append, List.length_singleton]
          omega
        · exact hq
    exact inv blocks [] (by simp)
  · intro q blk hq
    unfold add_samples
    rw [if_neg (by omega)]
  · intro q blk hq
    unfold add_samples
    rw [if_pos hq]

/-! ## Claim C6 — `MainWindow.get_latest_snr` -/

/-- Python's substring test `"RTTY" in _current_modem`: whether `pat`
occurs contiguously in the string. -/
def containsSub (pat : List Char) : List Char → Bool
  | [] => pat.isEmpty
  | c :: rest => pat.isPrefixOf (c :: rest) || containsSub pat rest

/-- The lookback maximum: `np.max` of the last `lookback` entries when more
than `lookback` are buffered, of the whole history otherwise (`np.max`
raises on an empty array, hence `Option`). -/
def snrLookbackMax (lookback : ℕ) (history : List ℚ) : Option ℚ :=
  if lookback < history.length then
    (history.drop (history.length - lookback)).max?
  else history.max?

/-- `MainWindow.get_latest_snr`: `_snr_update_rate = 2` Hz;
`_snr_lookback = 2 * 15` when the selected modem name contains `"RTTY"`,
else `2 * 4`; then the maximum over `snrPlotSNR[-_snr_lookback:]` (or over
the whole history when it is not longer than the lookback). -/
def get_latest_snr (currentModem : List Char) (snrHistory : List ℚ) :
    Option ℚ :=
  snrLookbackMax
    (if containsSub ['R','T','T','Y'] currentModem then 2 * 15 else 2 * 4)
    snrHistory

/-- C6: `get_latest_snr` returns the maximum over the most recent
`update_rate × lookback_seconds` entries of the SNR history — 2 Hz with 15 s
(30 samples) when the modem name contains `"RTTY"`, 2 Hz with 4 s
(8 samples) otherwise — never the most recent value alone; when the
history is shorter than the window the maximum is over the whole history.
For the history `[1,5,2,8,3]` and a lookback window of 3 the result is
`max (2,8,3) = 8`, not the most recent value 3. -/
theorem get_latest_snr_spec (modem : List Char) (history : List ℚ)
    (h : history ≠ []) :
    get_latest_snr modem history =
      (history.drop (history.length -
        (if containsSub ['R','T','T','Y'] modem then 30 else 8))).max? ∧
    (∃ m, get_latest_snr modem history = some m ∧ m ∈ history ∧
      ∀ x ∈ history.drop (history.length -
        (if containsSub ['R','T','T','Y'] modem then 30 else 8)), x ≤ m) ∧
    snrLookbackMax 3 [1, 5, 2, 8, 3] = some 8 ∧ (8 : ℚ) ≠ 3 := by
  have key : ∀ lookback : ℕ, snrLookbackMax lookback history =
      (history.drop (history.length - lookback)).max? := by
    intro lookback
    unfold snrLookbackMax
    split
    · rfl
    · have : history.length - lookback = 0 := by omega
      rw [this, List.drop_zero]
  have e : get_latest_snr modem history =
      (history.drop (history.length -
        (if containsSub ['R','T','T','Y'] modem then 30 else 8))).max? := by
    unfold get_latest_snr
    rcases hi : containsSub ['R','T','T','Y'] modem with _ | _
    · exact key (2 * 4)
    · exact key (2 * 15)
  refine ⟨e, ?_, by decide, by decide⟩
  have hne : history.drop (history.length -
      (if containsSub ['R','T','T','Y'] modem then 30 else 8)) ≠ [] := by
    rw [← List.length_pos, List.length_drop]
    have h1 := List.length_pos.mpr h
    have h2 : 1 ≤ (if containsSub ['R','T','T','Y'] modem = true
        then 30 else 8 : ℕ) := by
      split <;> omega
    omega
  obtain ⟨m, hm, hmem, hle⟩ := max?_spec hne
  exact ⟨m, by rw [e, hm], List.mem_of_mem_drop hmem, hle⟩

set_option maxRecDepth 4096 in
/-- C6 witness: a 40-entry history under the RTTY modem name: the result is
the maximum of the last 30 entries. -/
theorem get_latest_snr_witness :
    get_latest_snr ['R','T','T','Y',' ','7','N','2']
        ((List.range 40).map fun k => (k : ℚ)) =
      (((List.range 40).map fun k => (k : ℚ)).drop
        (((List.range 40).map fun k => (k : ℚ)).length -
          (if containsSub ['R','T','T','Y'] ['R','T','T','Y',' ','7','N','2']
            then 30 else 8))).max? :=
  (get_latest_snr_spec ['R','T','T','Y',' ','7','N','2']
    ((List.range 40).map fun k => (k : ℚ)) (by decide)).1

/-! ## `MainWindow.handle_new_packet` fan-out (`horusgui/gui.py`) -/

/-- The telemetry sinks `handle_new_packet` can hand a record to, in the
order the source reaches them: the SondeHub uploader (`sondehub_uploader.add`),
the rotator (`rotator.set_azel`), Horus UDP (`send_payload_summary`),
OziMux (`send_ozimux_message`) and the disk logger (`telemetry_logger.add`). -/
inductive Sink where
  | sondehub
  | rotator
  | horusUDP
  | oziMux
  | diskLog
  deriving DecidableEq, Repr

/-- The fields of a decoded record that the fan-out control flow inspects. -/
structure DecodedTelem where
  latitude : ℚ
  longitude : ℚ
  deriving DecidableEq, Repr

/-- The inputs of one `handle_new_packet` call, with the external calls
(`parse_ukhas_string` / `decode_packet` from `horusdemodlib`, `float` on
the station-position entry fields, `position_info`) represented by their
outcomes: `none` for a raised exception, `some` for a result. -/
structure PacketInput where
  /-- `frame.data` (empty means the frame is skipped entirely). -/
  frameData : List ℕ
  /-- Outcome of the external payload parse; `none` when it raised. -/
  parsed : Option DecodedTelem
  /-- Whether a raised parse error carried `"CRC Failure"` in its text. -/
  crcFailureMessage : Bool
  /-- The `inhibitCRCSelector` ("hide CRC errors") checkbox. -/
  hideCRCErrors : Bool
  /-- `float(self.widgets["userLatEntry"].text())`; `none` when it raised. -/
  stationLat : Option ℚ
  /-- `float(self.widgets["userLonEntry"].text())`; `none` when it raised. -/
  stationLon : Option ℚ
  /-- `float(self.widgets["userAltEntry"].text())`; `none` when it raised. -/
  stationAlt : Option ℚ
  /-- `position_info(...)['straight_distance']`; `none` when it raised. -/
  positionInfo : Option ℚ
  /-- `self.rotator` is connected (non-`None`). -/
  rotatorConnected : Bool
  /-- The `rotatorRangeInhibit` checkbox. -/
  rangeInhibitChecked : Bool
  /-- The `horusUploadSelector` checkbox. -/
  horusUDPEnabled : Bool
  /-- The `ozimuxUploadSelector` checkbox. -/
  ozimuxEnabled : Bool
  /-- `self.telemetry_logger` is running. -/
  loggerPresent : Bool
  deriving Repr

/-- The rotator-move decision in `handle_new_packet`:
`if self.rotator and not (lat == 0.0 and lon == 0.0) and not _range_inhibit`
where `_range_inhibit = rotatorRangeInhibit.isChecked() and
straight_distance < 250`. -/
def rotator_should_move (rotatorConnected rangeInhibitChecked : Bool)
    (straightDistance lat lon : ℚ) : Bool :=
  let rangeInhibit := rangeInhibitChecked && decide (straightDistance < 250)
  rotatorConnected && !(decide (lat = 0) && decide (lon = 0)) && !rangeInhibit

/-- The sink fan-out of `MainWindow.handle_new_packet` for one frame: an
empty frame does nothing; a failed parse (`_decoded` stays `None`) only
updates the display — the `inhibitCRCSelector` branch merely suppresses
the on-screen error text — and reaches **no** sink; a parsed record is
handed to SondeHub, then (when the station position parses, is not
`(0,0)`, and `position_info` succeeds) possibly to the rotator, then to
the enabled UDP outputs and the logger. -/
def handle_new_packet (inp : PacketInput) : List Sink :=
  if inp.frameData = [] then []
  else
    match inp.parsed with
    | none => []
    | some d =>
      [Sink.sondehub] ++
      (match inp.stationLat, inp.stationLon, inp.stationAlt with
       | some slat, some slon, some _ =>
         if slat ≠ 0 ∨ slon ≠ 0 then
           match inp.positionInfo with
           | some dist =>
             if rotator_should_move inp.rotatorConnected
               inp.rangeInhibitChecked dist d.latitude d.longitude
             then [Sink.rotator] else []
           | none => []
         else []
       | _, _, _ => []) ++
      (if inp.horusUDPEnabled then [Sink.horusUDP] else []) ++
      (if inp.ozimuxEnabled then [Sink.oziMux] else []) ++
      (if inp.loggerPresent then [Sink.diskLog] else [])

/-! ## Claim C7 -/

/-- C7: with a record successfully decoded, the station position parsed
and non-zero, and `position_info` computed, the rotator sink fires exactly
when `rotator_should_move` allows it; and `rotator_should_move` suppresses
the command when the record's latitude and longitude are both exactly 0.0,
or when range-inhibit is on and the distance is below 250 m (249 m
suppresses, 251 m issues), issues it in every other case with a rotator
connected, and at exactly 250 m issues it (the boundary is exclusive:
`straight_distance < 250`). -/
theorem rotator_command_policy (inp : PacketInput) (d : DecodedTelem)
    (slat slon salt dist : ℚ)
    (hne : inp.frameData ≠ []) (hp : inp.parsed = some d)
    (hsl : inp.stationLat = some slat) (hso : inp.stationLon = some slon)
    (hsa : inp.stationAlt = some salt) (hpos : inp.positionInfo = some dist)
    (hstation : slat ≠ 0 ∨ slon ≠ 0) :
    (Sink.rotator ∈ handle_new_packet inp ↔
      rotator_should_move inp.rotatorConnected inp.rangeInhibitChecked dist
        d.latitude d.longitude = true) ∧
    (∀ c i : Bool, ∀ x lat lon : ℚ,
      (lat = 0 ∧ lon = 0 → rotator_should_move c i x lat lon = false) ∧
      (i = true → x < 250 → rotator_should_move c i x lat lon = false) ∧
      (c = true → ¬(lat = 0 ∧ lon = 0) → ¬(i = true ∧ x < 250) →
        rotator_should_move c i x lat lon = true) ∧
      (¬(lat = 0 ∧ lon = 0) → rotator_should_move true true 249 lat lon = false) ∧
      (¬(lat = 0 ∧ lon = 0) → rotator_should_move true true 251 lat lon = true) ∧
      (¬(lat = 0 ∧ lon = 0) → rotator_should_move true true 250 lat lon = true)) := by
  constructor
  · unfold handle_new_packet
    rw [if_neg hne, hp, hsl, hso, hsa, hpos]
    dsimp only
    rw [if_pos hstation]
    by_cases hrm : rotator_should_move inp.rotatorConnected
        inp.rangeInhibitChecked dist d.latitude d.longitude = true
    · rw [if_pos hrm]
      simp [hrm]
    · rw [if_neg hrm]
      simp only [List.append_assoc, List.singleton_append, List.nil_append]
      constructor
      · intro hmem
        exfalso
        rcases List.mem_cons.mp hmem with e | hmem
        · exact Sink.noConfusion e
        · rcases List.mem_append.mp hmem with hm | hm
          · split at hm <;> simp at hm
          · rcases List.mem_append.mp hm with hm' | hm'
            · split at hm' <;> simp at hm'
            · split at hm' <;> simp at hm'
      · intro he
        exact absurd he hrm
  · intro c i x lat lon
    refine ⟨?_, ?_, ?_, ?_, ?_, ?_⟩
    · rintro ⟨rfl, rfl⟩
      simp [rotator_should_move]
    · rintro rfl hx
      simp [rotator_should_move, hx]
    · rintro rfl hz hix
      unfold rotator_should_move
      have h1 : (decide (lat = 0) && decide (lon = 0)) = false := by
        rw [Bool.and_eq_false_iff]
        by_cases hl : lat = 0
        · exact Or.inr (decide_eq_false fun hlon => hz ⟨hl, hlon⟩)
        · exact Or.inl (decide_eq_false hl)
      have h2 : (i && decide (x < 250)) = false := by
        rw [Bool.and_eq_false_iff]
        by_cases hi : i = true
        · exact Or.inr (decide_eq_false fun hx => hix ⟨hi, hx⟩)
        · exact Or.inl (by simpa using hi)
      simp [h1, h2]
    · intro hz
      unfold rotator_should_move
      simp [show (249 : ℚ) < 250 by norm_num]
    · intro hz
      unfold rotator_should_move
      have h1 : (decide (lat = 0) && decide (lon = 0)) = false := by
        rw [Bool.and_eq_false_iff]
        by_cases hl : lat = 0
        · exact Or.inr (decide_eq_false fun hlon => hz ⟨hl, hlon⟩)
        · exact Or.inl (decide_eq_false hl)
      have h2 : ¬((251 : ℚ) < 250) := by norm_num
      simp [h1, h2]
    · intro hz
      unfold rotator_should_move
      have h1 : (decide (lat = 0) && decide (lon = 0)) = false := by
        rw [Bool.and_eq_false_iff]
        by_cases hl : lat = 0
        · exact Or.inr (decide_eq_false fun hlon => hz ⟨hl, hlon⟩)
        · exact Or.inl (decide_eq_false hl)
      have h2 : ¬((250 : ℚ) < 250) := by norm_num
      simp [h1, h2]

set_option maxRecDepth 4096 in
/-- C7 witness: a concrete input with rotator connected, inhibit on and a
distance of 249 m: the rotator sink does not fire. -/
theorem rotator_command_policy_witness :
    (Sink.rotator ∈ handle_new_packet
      ⟨[1], some ⟨-34, 138⟩, false, false, some (-34.9), some 138.6, some 100,
        some 249, true, true, false, false, false⟩ ↔
      rotator_should_move true true 249 (-34) 138 = true) ∧
    (∀ c i : Bool, ∀ x lat lon : ℚ,
      (lat = 0 ∧ lon = 0 → rotator_should_move c i x lat lon = false) ∧
      (i = true → x < 250 → rotator_should_move c i x lat lon = false) ∧
      (c = true → ¬(lat = 0 ∧ lon = 0) → ¬(i = true ∧ x < 250) →
        rotator_should_move c i x lat lon = true) ∧
      (¬(lat = 0 ∧ lon = 0) → rotator_should_move true true 249 lat lon = false) ∧
      (¬(lat = 0 ∧ lon = 0) → rotator_should_move true true 251 lat lon = true) ∧
      (¬(lat = 0 ∧ lon = 0) → rotator_should_move true true 250 lat lon = true)) :=
  rotator_command_policy
    ⟨[1], some ⟨-34, 138⟩, false, false, some (-34.9), some 138.6, some 100,
      some 249, true, true, false, false, false⟩
    ⟨-34, 138⟩ (-34.9) 138.6 100 249
    (by decide) rfl rfl rfl rfl rfl (by norm_num)

/-! ## Claim C8 -/

/-- C8: when the payload parse fails (checksum mismatch, invalid fields or
a binary decode exception — the external parse raised, so `_decoded`
remains `None`), no sink receives anything for that frame: no SondeHub
upload, no rotator command, no Horus UDP or OziMux message, no disk-log
entry — whether or not the hide-CRC-errors option is set and whatever the
error text was — and the frames after it are processed exactly as if the
failing frame had not occurred. -/
theorem parse_failure_reaches_no_sink (inp : PacketInput)
    (h : inp.parsed = none) :
    handle_new_packet inp = [] ∧
    (∀ b₁ b₂ : Bool,
      handle_new_packet
        { inp with crcFailureMessage := b₁, hideCRCErrors := b₂ } = []) ∧
    (∀ rest : List PacketInput,
      (inp :: rest).map handle_new_packet = [] :: rest.map handle_new_packet) := by
  have key : ∀ j : PacketInput, j.parsed = none → handle_new_packet j = [] := by
    intro j hj
    unfold handle_new_packet
    rw [hj]
    split <;> rfl
  refine ⟨key inp h, fun b₁ b₂ => key _ h, fun rest => ?_⟩
  rw [List.map_cons, key inp h]

set_option maxRecDepth 4096 in
/-- C8 witness: a frame whose parse raised, with every sink enabled and
the rotator connected, reaches no sink. -/
theorem parse_failure_reaches_no_sink_witness :
    handle_new_packet
      ⟨[1, 2, 3], none, true, true, some (-34.9), some 138.6, some 100,
        some 5000, true, false, true, true, true⟩ = [] :=
  (parse_failure_reaches_no_sink
    ⟨[1, 2, 3], none, true, true, some (-34.9), some 138.6, some 100,
      some 5000, true, false, true, true, true⟩ rfl).1

/-! ## Claim C10 — rotator input sanitisation (`horusgui/rotators.py`) -/

/-- Python's float `%` operator: `a % b = a - b * floor(a / b)` (result has
the sign of the divisor). -/
def pyMod (a b : ℚ) : ℚ := a - b * ⌊a / b⌋

/-- The input sanitisation at the top of `ROTCTLD.set_azel`, performed
before the `"P %3.1f %2.1f"` command string is formatted and sent:
elevation clamped into `[0, 90]`, azimuth reduced modulo 360 only when
strictly greater than `360.0`. -/
def ROTCTLD_set_azel_sanitize (azimuth elevation : ℚ) : ℚ × ℚ :=
  let elevation := if elevation > 90 then 90
    else if elevation < 0 then 0 else elevation
  let azimuth := if azimuth > 360 then pyMod azimuth 360 else azimuth
  (azimuth, elevation)

/-- The identical input sanitisation at the top of `PSTRotator.set_azel`,
performed before the `<PST>...</PST>` command string is formatted and
sent. -/
def PSTRotator_set_azel_sanitize (azimuth elevation : ℚ) : ℚ × ℚ :=
  let elevation := if elevation > 90 then 90
    else if elevation < 0 then 0 else elevation
  let azimuth := if azimuth > 360 then pyMod azimuth 360 else azimuth
  (azimuth, elevation)

theorem pyMod_360_bounds (a : ℚ) : 0 ≤ pyMod a 360 ∧ pyMod a 360 < 360 := by
  have h : pyMod a 360 = 360 * Int.fract (a / 360) := by
    unfold pyMod Int.fract
    field_simp
  rw [h]
  constructor
  · exact mul_nonneg (by norm_num) (Int.fract_nonneg (a / 360))
  · nlinarith [Int.fract_lt_one (a / 360)]

/-- C10: in both rotator drivers, before any command is formatted and
sent, the elevation is clamped into `[0, 90]` (values above 90 become 90,
below 0 become 0, in-range values pass unchanged) and an azimuth strictly
greater than `360.0` is replaced by `azimuth % 360.0` (landing in
`[0, 360)`), while azimuths at most `360` — including negative ones —
pass through unchanged; the two drivers sanitise identically. -/
theorem set_azel_sanitize_spec (az el : ℚ) :
    PSTRotator_set_azel_sanitize az el = ROTCTLD_set_azel_sanitize az el ∧
    (0 ≤ (ROTCTLD_set_azel_sanitize az el).2 ∧
      (ROTCTLD_set_azel_sanitize az el).2 ≤ 90) ∧
    (90 < el → (ROTCTLD_set_azel_sanitize az el).2 = 90) ∧
    (el < 0 → (ROTCTLD_set_azel_sanitize az el).2 = 0) ∧
    (0 ≤ el → el ≤ 90 → (ROTCTLD_set_azel_sanitize az el).2 = el) ∧
    (360 < az → (ROTCTLD_set_azel_sanitize az el).1 = pyMod az 360 ∧
      0 ≤ (ROTCTLD_set_azel_sanitize az el).1 ∧
      (ROTCTLD_set_azel_sanitize az el).1 < 360) ∧
    (az ≤ 360 → (ROTCTLD_set_azel_sanitize az el).1 = az) := by
  unfold PSTRotator_set_azel_sanitize ROTCTLD_set_azel_sanitize
  dsimp only
  refine ⟨rfl, ?_, ?_, ?_, ?_, ?_, ?_⟩
  · constructor
    · split
      · norm_num
      · split
        · norm_num
        · linarith [not_lt.mp (by assumption : ¬el < 0)]
    · split
      · norm_num
      · split
        · norm_num
        · linarith [not_lt.mp (by assumption : ¬el > 90)]
  · intro h
    rw [if_pos h]
  · intro h
    rw [if_neg (by linarith), if_pos h]
  · intro h0 h90
    rw [if_neg (by linarith), if_neg (by linarith)]
  · intro h
    rw [if_pos h]
    exact ⟨rfl, (pyMod_360_bounds az).1, (pyMod_360_bounds az).2⟩
  · intro h
    rw [if_neg (not_lt.mpr h)]

end HorusGui
